import Mathlib

set_option synthInstance.maxSize 1024

/-!
Verification of the Drawback Chess assistant's real-time assist engine.

This development shallowly embeds the Python source of the assistant
(`assistant/advanced_assistant.py`, `assistant/core/engine.py`,
`assistant/core/move_manager.py`, `assistant/modular_assistant.py`) in Lean.
Pure functions become Lean functions; the stateful orchestrator becomes
explicit state passing over an `AssistState` record; the external engine
process and the external chess-rules library (python-chess) are modelled as
explicit oracle parameters, since they are collaborators outside this
repository.  Python floats carrying centipawn scores are modelled as
rationals; Python dicts are modelled as association lists whose lookup
finds the most recent binding.
-/

namespace DrawbackAssist

/-! ## Move quality classifier (`MoveQuality.classify`) -/

/-- The six quality tiers of `MoveQuality` in `advanced_assistant.py`. -/
inductive Tier where
  | best
  | excellent
  | good
  | inaccuracy
  | mistake
  | blunder
deriving DecidableEq

namespace MoveQuality

/-- Embedding of `MoveQuality.classify` (advanced_assistant.py lines 81-95):
an if/elif chain over the centipawn loss.  The Python float argument is
modelled as a rational. -/
def classify (cpLoss : ℚ) : Tier :=
  if cpLoss ≤ 0 then Tier.best
  else if cpLoss ≤ 25 then Tier.excellent
  else if cpLoss ≤ 75 then Tier.good
  else if cpLoss ≤ 150 then Tier.inaccuracy
  else if cpLoss ≤ 300 then Tier.mistake
  else Tier.blunder

end MoveQuality

/-- Claim C6: `classify` is a pure, total function of centipawn loss with
inclusive upper bounds: for every loss l it returns Best when l ≤ 0,
Excellent when 0 < l ≤ 25, Good when 25 < l ≤ 75, Inaccuracy when
75 < l ≤ 150, Mistake when 150 < l ≤ 300, and Blunder when l > 300; in
particular classify(0)=Best, classify(25)=Excellent, classify(150)=Inaccuracy,
classify(151)=Mistake, classify(301)=Blunder. -/
theorem classify_boundaries :
    (∀ l : ℚ, l ≤ 0 → MoveQuality.classify l = Tier.best) ∧
    (∀ l : ℚ, 0 < l → l ≤ 25 → MoveQuality.classify l = Tier.excellent) ∧
    (∀ l : ℚ, 25 < l → l ≤ 75 → MoveQuality.classify l = Tier.good) ∧
    (∀ l : ℚ, 75 < l → l ≤ 150 → MoveQuality.classify l = Tier.inaccuracy) ∧
    (∀ l : ℚ, 150 < l → l ≤ 300 → MoveQuality.classify l = Tier.mistake) ∧
    (∀ l : ℚ, 300 < l → MoveQuality.classify l = Tier.blunder) ∧
    MoveQuality.classify 0 = Tier.best ∧
    MoveQuality.classify 25 = Tier.excellent ∧
    MoveQuality.classify 150 = Tier.inaccuracy ∧
    MoveQuality.classify 151 = Tier.mistake ∧
    MoveQuality.classify 301 = Tier.blunder := by
  refine ⟨?_, ?_, ?_, ?_, ?_, ?_, ?_, ?_, ?_, ?_, ?_⟩
  · intro l h1
    simp only [MoveQuality.classify]; split_ifs <;> first | rfl | linarith
  · intro l h1 h2
    simp only [MoveQuality.classify]; split_ifs <;> first | rfl | linarith
  · intro l h1 h2
    simp only [MoveQuality.classify]; split_ifs <;> first | rfl | linarith
  · intro l h1 h2
    simp only [MoveQuality.classify]; split_ifs <;> first | rfl | linarith
  · intro l h1 h2
    simp only [MoveQuality.classify]; split_ifs <;> first | rfl | linarith
  · intro l h1
    simp only [MoveQuality.classify]; split_ifs <;> first | rfl | linarith
  · norm_num [MoveQuality.classify]
  · norm_num [MoveQuality.classify]
  · norm_num [MoveQuality.classify]
  · norm_num [MoveQuality.classify]
  · norm_num [MoveQuality.classify]

/-- Witness for C6: the boundary facts of `classify_boundaries` applied at
concrete losses. -/
theorem classify_boundaries_witness :
    MoveQuality.classify 10 = Tier.excellent ∧
    MoveQuality.classify 400 = Tier.blunder ∧
    MoveQuality.classify (-5) = Tier.best := by
  refine ⟨?_, ?_, ?_⟩
  · exact classify_boundaries.2.1 10 (by norm_num) (by norm_num)
  · exact classify_boundaries.2.2.2.2.2.1 400 (by norm_num)
  · exact classify_boundaries.1 (-5) (by norm_num)

/-! ## Chess data model

Positions and moves as the assistant sees them.  The source manipulates FEN
strings and `python-chess` board objects; here a position is the canonical
pair of a piece placement and a side to move — exactly the data a FEN string
carries and the only data any of the claims depend on.  Moves are the parsed
form of the 4-character UCI strings the assistant builds from the wire
format (`f"{start_sq}{stop_sq}".lower()`). -/

/-- Side colors. -/
inductive PieceColor where
  | white
  | black
deriving DecidableEq, Fintype

/-- The opposite side; `chess.BLACK if turn == "white" else chess.WHITE`. -/
def PieceColor.opposite : PieceColor → PieceColor
  | .white => .black
  | .black => .white

/-- Piece kinds of `python-chess` (`piece_type`). -/
inductive PieceKind where
  | pawn
  | knight
  | bishop
  | rook
  | queen
  | king
deriving DecidableEq, Fintype

/-- A colored piece. -/
structure Piece where
  color : PieceColor
  kind : PieceKind
deriving DecidableEq, Fintype

/-- A piece placement: square index (0-63, as in `chess.SQUARES`) to piece,
as an association list.  Models the board object `chess.Board(fen)`. -/
abbrev Board := List (Nat × Piece)

/-- Embedding of `board.piece_at(square)`. -/
def pieceAt (b : Board) (sq : Nat) : Option Piece :=
  (b.find? (fun e => decide (e.1 = sq))).map (·.2)

/-- A parsed UCI move: source and destination square (`move.from_square`,
`move.to_square`). -/
structure Move where
  start : Nat
  stop : Nat
deriving DecidableEq

/-- The spec's fingerprint: canonical position + side to move.  In the
source this is the FEN string `PacketParser.board_to_fen(board_state, turn)`;
the pair is the data that string encodes. -/
abbrev Fingerprint := Board × PieceColor

/-- Total order key used to sort a move list; stands for the lexicographic
sort of UCI strings in `','.join(sorted(uci_moves))`. -/
def moveKey (m : Move) : Nat := m.start * 64 + m.stop

/-- Insertion step of the sort. -/
def insertMove (m : Move) : List Move → List Move
  | [] => [m]
  | x :: xs => if moveKey m ≤ moveKey x then m :: x :: xs else x :: insertMove m xs

/-- Sorting a move list; models `sorted(uci_moves)` in the cache keys. -/
def sortMoves (l : List Move) : List Move := l.foldr insertMove []

/-- A best-move cache key: `f"{fen}:{','.join(sorted(uci_moves))}"`, i.e.
the fingerprint together with the sorted move list. -/
abbrev ScoreKey := Fingerprint × List Move

/-! ## `EngineManager.score_moves` (assistant/core/engine.py lines 43-76)

The external engine process is an oracle: given a query it either raises
(crash / timeout / unparseable response — modelled as `none`) or returns an
analysis whose principal variation may or may not contain a first move. -/

/-- A best-move result: optional best move and white-relative score. -/
abbrev BMResult := Option Move × ℚ

/-- The `move_cache` dict of `EngineManager`. -/
abbrev BMCache := List (ScoreKey × BMResult)

/-- Dict lookup on the best-move cache. -/
def lookupBM (c : BMCache) (k : ScoreKey) : Option BMResult :=
  (c.find? (fun e => decide (e.1 = k))).map (·.2)

/-- The external engine for best-move queries: `none` models an exception
escaping `self.engine.analyse` (crash, timeout, malformed response); `some
(pvFirst, score)` models a completed analysis whose principal variation
starts with `pvFirst` (possibly absent) and whose score, mate-encoded with
sentinel 10000, is `score`. -/
abbrev EngineOracle := ScoreKey → Option (Option Move × ℚ)

/-- The cache key of a `score_moves` query. -/
def smKey (fp : Fingerprint) (uciMoves : List Move) : ScoreKey :=
  (fp, sortMoves uciMoves)

/-- Outcome of one `EngineManager.score_moves` call: the returned pair, the
cache afterwards, whether the external engine was invoked, and whether that
invocation raised. -/
structure SMOut where
  res : BMResult
  cache : BMCache
  invoked : Bool
  failed : Bool
deriving DecidableEq

/-- Embedding of `EngineManager.score_moves`: consult `move_cache`; parse
the move list (structured moves always parse; Python skips unparseable
strings, so the parsed list is empty exactly when the input list is); if
empty return `(None, 0.0)` without invoking the engine; otherwise invoke
the engine — on an exception print and return `(None, 0.0)` without
caching, on success derive the result from the first move of the principal
variation and store it in the cache. -/
def score_moves (oracle : EngineOracle) (c : BMCache) (fp : Fingerprint)
    (uciMoves : List Move) : SMOut :=
  let key := smKey fp uciMoves
  match lookupBM c key with
  | some r => ⟨r, c, false, false⟩
  | none =>
    if uciMoves.isEmpty then ⟨(none, 0), c, false, false⟩
    else
      match oracle key with
      | none => ⟨(none, 0), c, true, true⟩
      | some (pvFirst, s) =>
        let r : BMResult :=
          match pvFirst with
          | some b => (some b, s)
          | none => (none, 0)
        ⟨r, (key, r) :: c, true, false⟩

theorem lookupBM_cons_self (c : BMCache) (k : ScoreKey) (v : BMResult) :
    lookupBM ((k, v) :: c) k = some v := by
  simp [lookupBM, List.find?]

/-- Shared helper: after a non-failing `score_moves` call, a repeat of the
same query (against any engine behaviour) does not invoke the engine and
returns the stored value. -/
theorem score_moves_repeat_aux (oracle oracle' : EngineOracle) (c : BMCache)
    (fp : Fingerprint) (ms : List Move)
    (h : (score_moves oracle c fp ms).failed = false) :
    (score_moves oracle' (score_moves oracle c fp ms).cache fp ms).invoked = false ∧
    (score_moves oracle' (score_moves oracle c fp ms).cache fp ms).res =
      (score_moves oracle c fp ms).res := by
  unfold score_moves at *
  cases hl : lookupBM c (smKey fp ms) with
  | some r => simp [hl]
  | none =>
    simp only [hl] at h ⊢
    by_cases he : ms.isEmpty
    · simp [he, hl]
    · simp only [he, if_false] at h ⊢
      cases ho : oracle (smKey fp ms) with
      | none => simp [ho] at h
      | some pr =>
        cases pr with
        | mk pv s =>
          simp only [ho]
          cases pv <;> simp [lookupBM_cons_self]

/-- Claim C3: a repeated best-move query with the same key does not invoke
the engine again and returns a value equal to the result of the original
computation — a cache hit is indistinguishable in output from a fresh
computation.  The hypothesis excludes the failure case (an engine exception
stores nothing, see C10); the second query may even run against a changed
engine (`oracle'`), and still returns exactly the stored value. -/
theorem repeat_query_cache_hit (oracle oracle' : EngineOracle) (c : BMCache)
    (fp : Fingerprint) (ms : List Move)
    (h : (score_moves oracle c fp ms).failed = false) :
    (score_moves oracle' (score_moves oracle c fp ms).cache fp ms).invoked = false ∧
    (score_moves oracle' (score_moves oracle c fp ms).cache fp ms).res =
      (score_moves oracle c fp ms).res :=
  score_moves_repeat_aux oracle oracle' c fp ms h

/-- Witness for C3: a concrete successful query, repeated. -/
theorem repeat_query_cache_hit_witness :
    ((score_moves (fun _ => some (some ⟨12, 28⟩, 35)) [] ([], PieceColor.white)
        [⟨12, 28⟩]).failed = false) ∧
    ((score_moves (fun _ => none)
        (score_moves (fun _ => some (some ⟨12, 28⟩, 35)) [] ([], PieceColor.white)
          [⟨12, 28⟩]).cache ([], PieceColor.white) [⟨12, 28⟩]).invoked = false) := by
  refine ⟨by decide, ?_⟩
  exact (repeat_query_cache_hit (fun _ => some (some ⟨12, 28⟩, 35)) (fun _ => none)
    [] ([], PieceColor.white) [⟨12, 28⟩] (by decide)).1

/-- Claim C10: an engine invocation failure (crash, timeout, malformed or
unparseable response) yields no result and stores nothing in the cache for
that key, so the same fingerprint is evaluated freshly — the engine is
invoked again — on the next triggering query. -/
theorem engine_failure_not_cached (oracle oracle' : EngineOracle) (c : BMCache)
    (fp : Fingerprint) (ms : List Move)
    (hmiss : lookupBM c (smKey fp ms) = none) (hne : ms.isEmpty = false)
    (hfail : oracle (smKey fp ms) = none) :
    (score_moves oracle c fp ms).res = (none, 0) ∧
    (score_moves oracle c fp ms).cache = c ∧
    (score_moves oracle' (score_moves oracle c fp ms).cache fp ms).invoked = true := by
  unfold score_moves
  simp only [hmiss, hne, hfail, if_false]
  refine ⟨rfl, rfl, ?_⟩
  cases ho : oracle' (smKey fp ms) with
  | none => simp [hmiss, hne, ho]
  | some pr => cases pr with | mk pv s => cases pv <;> simp [hmiss, hne, ho]

/-- Witness for C10: a concrete failing engine invocation. -/
theorem engine_failure_not_cached_witness :
    (score_moves (fun _ => none) [] ([], PieceColor.white) [⟨12, 28⟩]).cache = [] ∧
    (score_moves (fun _ => some (some ⟨12, 28⟩, 35))
      (score_moves (fun _ => none) [] ([], PieceColor.white) [⟨12, 28⟩]).cache
      ([], PieceColor.white) [⟨12, 28⟩]).invoked = true := by
  have h := engine_failure_not_cached (fun _ => none)
    (fun _ => some (some ⟨12, 28⟩, 35)) [] ([], PieceColor.white) [⟨12, 28⟩]
    (by decide) (by decide) rfl
  exact ⟨h.2.1, h.2.2⟩

/-! ## Single-flight trace model (claim C2)

The assistant runs on one asyncio event loop, and every external engine
invocation (`self.engine.analyse`) is a synchronous, blocking call with no
await point between its start and its completion.  Consequently engine
queries are serialized: the event loop cannot interleave another handler
while an invocation is outstanding.  The trace model below reflects this:
a trace is a sequence of analysis requests, each processed to completion,
and each engine invocation it performs contributes an adjacent start/end
event pair to the event log. -/

/-- Python dict assignment `d[k] = v` on an insertion-ordered association
list: overwrite an existing binding in place, else append. -/
def upsert (l : List (Move × ℚ)) (m : Move) (s : ℚ) : List (Move × ℚ) :=
  if l.any (fun e => decide (e.1 = m)) then
    l.map (fun e => if e.1 = m then (m, s) else e)
  else l ++ [(m, s)]

/-- The external engine for per-move evaluation: the white-relative score of
the position after a move, searched to a given depth (one blocking
`self.engine.analyse` call). -/
abbrev ProgOracle := Move → Nat → ℚ

/-- Embedding of `EngineManager.evaluate_moves_progressive`
(assistant/core/engine.py lines 78-107): if the parsed move list is empty
return the empty dict; else iterate the depth ladder `[1, 6, max_depth]`,
scoring every move at every depth (one engine invocation each).  Returns
the final score dict and the number of engine invocations performed. -/
def core_evaluate_moves_progressive (po : ProgOracle) (maxDepth : Nat)
    (moves : List Move) : List (Move × ℚ) × Nat :=
  if moves.isEmpty then ([], 0)
  else
    ([1, 6, maxDepth].foldl
        (fun acc d => moves.foldl (fun a m => upsert a m (po m d)) acc) [],
      [1, 6, maxDepth].foldl (fun n _ => moves.foldl (fun k _ => k + 1) n) 0)

/-- The two query kinds of the Engine Query Service. -/
inductive QueryKind where
  | bestMoveQ
  | qualityQ
deriving DecidableEq

/-- An engine invocation is identified by the fingerprint it analyses and
the kind of query that issued it: the claim's pair (F, K). -/
abbrev FlightKey := Fingerprint × QueryKind

/-- One analysis request arriving at the service. -/
structure Request where
  kind : QueryKind
  fp : Fingerprint
  moves : List Move

/-- Processing of one request, atomic on the event loop: a best-move
request runs `score_moves` over the shared `move_cache`; a quality request
runs the progressive evaluation.  Returns the cache afterwards and how
many engine invocations the request performed. -/
def processReq (oracle : EngineOracle) (po : ProgOracle) (maxDepth : Nat)
    (c : BMCache) (r : Request) : BMCache × Nat :=
  match r.kind with
  | .bestMoveQ =>
    let out := score_moves oracle c r.fp r.moves
    (out.cache, if out.invoked then 1 else 0)
  | .qualityQ =>
    (c, (core_evaluate_moves_progressive po maxDepth r.moves).2)

/-- A whole trace of requests, processed in arrival order (the single
logical control flow).  Returns the final cache and the ordered list of
engine invocations, tagged with their (fingerprint, kind). -/
def runTrace (oracle : EngineOracle) (po : ProgOracle) (maxDepth : Nat) :
    BMCache → List Request → BMCache × List FlightKey
  | c, [] => (c, [])
  | c, r :: rs =>
    let step := processReq oracle po maxDepth c r
    let rest := runTrace oracle po maxDepth step.1 rs
    (rest.1, List.replicate step.2 (r.fp, r.kind) ++ rest.2)

/-- Start/end events of engine invocations. -/
inductive EngineEv where
  | callStart (k : FlightKey)
  | callEnd (k : FlightKey)

/-- Each blocking invocation contributes an adjacent start/end pair: no
await point separates them, so no other event interleaves. -/
def pairEvents : List FlightKey → List EngineEv
  | [] => []
  | k :: t => .callStart k :: .callEnd k :: pairEvents t

/-- Contribution of one event to the in-flight count of key `k`. -/
def evDelta (k : FlightKey) : EngineEv → Int
  | .callStart k' => if k' = k then 1 else 0
  | .callEnd k' => if k' = k then -1 else 0

/-- Number of invocations of key `k` in flight after a list of events. -/
def inflight (k : FlightKey) : List EngineEv → Int
  | [] => 0
  | e :: t => evDelta k e + inflight k t

theorem inflight_pairEvents_le_one (ks : List FlightKey) :
    ∀ (n : Nat) (k : FlightKey), inflight k ((pairEvents ks).take n) ≤ 1 := by
  induction ks with
  | nil => intro n k; simp [pairEvents, inflight]
  | cons k0 t ih =>
    intro n k
    match n with
    | 0 => simp [inflight]
    | 1 =>
      show inflight k [EngineEv.callStart k0] ≤ 1
      simp only [inflight, evDelta]
      split <;> omega
    | (m + 2) =>
      show inflight k (EngineEv.callStart k0 :: EngineEv.callEnd k0 ::
        (pairEvents t).take m) ≤ 1
      have hih := ih m k
      simp only [inflight, evDelta]
      split <;> omega

/-- Claim C2: for every fingerprint F and query kind K, at most one engine
invocation for (F, K) is in flight at any time — in fact, along any trace
of requests at most one invocation of any key is in flight at every prefix
of the event log, because each invocation is a blocking call completed
atomically by the single control flow.  Moreover a second best-move request
for the same key issued after a non-failing one performs zero engine
invocations: it attaches to the stored result instead of starting a
duplicate engine call. -/
theorem single_flight_per_key (oracle : EngineOracle) (po : ProgOracle)
    (maxDepth : Nat) (c : BMCache) (reqs : List Request) :
    (∀ (n : Nat) (k : FlightKey),
        inflight k ((pairEvents (runTrace oracle po maxDepth c reqs).2).take n) ≤ 1) ∧
    (∀ (c' : BMCache) (r : Request), r.kind = QueryKind.bestMoveQ →
        (score_moves oracle c' r.fp r.moves).failed = false →
        (processReq oracle po maxDepth
            (processReq oracle po maxDepth c' r).1 r).2 = 0) := by
  constructor
  · intro n k
    exact inflight_pairEvents_le_one (runTrace oracle po maxDepth c reqs).2 n k
  · intro c' r hk h
    have hrep := score_moves_repeat_aux oracle oracle c' r.fp r.moves h
    simp only [processReq, hk, hrep.1]
    rfl

/-- Witness for C2: the theorem applied along a concrete two-request trace
for one fingerprint, with a concrete repeated best-move request. -/
theorem single_flight_per_key_witness :
    (inflight (([], PieceColor.white), QueryKind.bestMoveQ)
        ((pairEvents (runTrace (fun _ => some (some ⟨12, 28⟩, 35)) (fun _ _ => 0) 14 []
          [⟨QueryKind.bestMoveQ, ([], PieceColor.white), [⟨12, 28⟩]⟩,
           ⟨QueryKind.qualityQ, ([], PieceColor.white), [⟨12, 28⟩]⟩]).2).take 1) ≤ 1) ∧
    ((processReq (fun _ => some (some ⟨12, 28⟩, 35)) (fun _ _ => 0) 14
        (processReq (fun _ => some (some ⟨12, 28⟩, 35)) (fun _ _ => 0) 14 []
          ⟨QueryKind.bestMoveQ, ([], PieceColor.white), [⟨12, 28⟩]⟩).1
        ⟨QueryKind.bestMoveQ, ([], PieceColor.white), [⟨12, 28⟩]⟩).2 = 0) := by
  constructor
  · exact (single_flight_per_key (fun _ => some (some ⟨12, 28⟩, 35)) (fun _ _ => 0) 14 []
      [⟨QueryKind.bestMoveQ, ([], PieceColor.white), [⟨12, 28⟩]⟩,
       ⟨QueryKind.qualityQ, ([], PieceColor.white), [⟨12, 28⟩]⟩]).1 1
      (([], PieceColor.white), QueryKind.bestMoveQ)
  · exact (single_flight_per_key (fun _ => some (some ⟨12, 28⟩, 35)) (fun _ _ => 0) 14
      [] []).2 [] ⟨QueryKind.bestMoveQ, ([], PieceColor.white), [⟨12, 28⟩]⟩ rfl (by decide)

/-! ## The assist orchestrator (`AdvancedAssistant`)

State-passing embedding of the session state of `AdvancedAssistant` and of
the handlers `_handle_response` (traffic observation / session reset),
`_process_game_update` (turn gate, fingerprint dedup, fast analysis) and
`_analyze_selected_piece` (progressive per-move quality).  I/O-only
behaviour (packet logging, file persistence, socket teardown, browser
windows) is outside the modelled state.  The `generation` field is a ghost
history variable: it counts game-id resets, realising the spec's generation
counter whose bump the code implements as clearing the three caches; every
cache write is tagged with the generation at which it happened. -/

/-- One attacker/defender threat edge (`_detect_threats` dict entries with
keys from / to / target_piece). -/
structure ThreatEdge where
  fromSq : Nat
  toSq : Nat
  targetPiece : Piece
deriving DecidableEq

/-- The attack relation `board.attackers(color, square)` of the external
rules library (python-chess): the squares of pieces of `color` attacking
the given square. -/
abbrev AttackFn := Board → PieceColor → Nat → List Nat

/-- The engine as seen by `AdvancedAssistant._score_moves`: the analysis
always returns, with an optional first move of the principal variation and
a white-relative, mate-encoded score (10000 sentinel). -/
abbrev AOracle := ScoreKey → Option Move × ℚ

/-- A best-move cache entry value together with the generation (ghost) at
which it was written. -/
abbrev ACache := List (ScoreKey × ((Option Move × ℚ) × Nat))

/-- Progressive-quality cache (`move_quality_cache`), generation-tagged. -/
abbrev QCache := List (ScoreKey × (List (Move × ℚ) × Nat))

/-- Threat cache (`threat_cache`), keyed by fingerprint (the source key is
the string `f"{fen}:threats"`), generation-tagged. -/
abbrev TCache := List (Fingerprint × (List ThreatEdge × Nat))

/-- Visual overlays drawn on the page: best-move highlight/arrow, threat
arrows, quality marks. -/
inductive Overlay where
  | bestHighlight (m : Move)
  | threatArrow (e : ThreatEdge)
  | qualityMark (sq : Nat) (t : Tier)
deriving DecidableEq

/-- The session state of `AdvancedAssistant` relevant to the claims. -/
structure AssistState where
  gameId : Option String
  generation : Nat
  playerColor : Option PieceColor
  gameResult : Option String
  showForPlayer : Bool
  showForOpponent : Bool
  showThreats : Bool
  showBestMove : Bool
  autoPlay : Bool
  lastHighlightedFen : Option Fingerprint
  currentFen : Option Fingerprint
  currentLegalMoves : List Move
  currentThreats : List ThreatEdge
  moveCache : ACache
  qualityCache : QCache
  threatCache : TCache
  overlays : List Overlay
  evalBar : Option ℚ
deriving DecidableEq

/-- The `game` object of a Socket.IO update event.  `none` components model
falsy values; `moves` is the legal-move list built from the per-square
destination lists (`f"{start_sq}{stop_sq}".lower()`), already parsed. -/
structure GameData where
  board : Option Board
  turn : Option PieceColor
  ply : Nat
  result : Option String
  moves : List Move

/-- A Socket.IO `update` payload. -/
structure Update where
  game : Option GameData

/-- Observable outcome of processing one update: number of external engine
invocations, the snapshot fingerprint when a new position was analysed,
the best move and score found (internal values of
`_analyze_position_fast`), and the moves auto-play posted. -/
structure ProcOut where
  engineCalls : Nat
  snapshot : Option Fingerprint
  best : Option Move
  score : ℚ
  submits : List Move
deriving DecidableEq

/-- Embedding of `AdvancedAssistant._find_king_capture` (lines 432-443):
scan the legal moves for one whose destination square holds a king
(unparseable move strings are skipped in the source and absent here). -/
def find_king_capture (b : Board) (legal : List Move) : Option Move :=
  legal.find? (fun m =>
    match pieceAt b m.stop with
    | some p => decide (p.kind = PieceKind.king)
    | none => false)

/-- Embedding of `AdvancedAssistant._score_moves` (lines 497-533): consult
`move_cache` under the (fen, sorted moves) key; with no parsed moves return
`(None, 0.0)`; otherwise one engine invocation; if the principal variation
has no first move return `(None, 0.0)` uncached, else cache and return the
move and score.  Returns (result, cache, engine invocations); writes are
tagged with the current generation. -/
def assistantScoreMoves (oracle : AOracle) (gen : Nat) (c : ACache)
    (fp : Fingerprint) (ms : List Move) : (Option Move × ℚ) × ACache × Nat :=
  let key := smKey fp ms
  match (c.find? (fun e => decide (e.1 = key))).map (·.2) with
  | some tv => (tv.1, c, 0)
  | none =>
    if ms.isEmpty then ((none, 0), c, 0)
    else
      match oracle key with
      | (none, _) => ((none, 0), c, 1)
      | (some b, s) => ((some b, s), (key, ((some b, s), gen)) :: c, 1)

/-- Attacker/defender enumeration of `_detect_threats` (lines 648-674):
for every square holding a piece of the side to move, one edge per
opposing attacker of that square. -/
def computeThreats (att : AttackFn) (b : Board) (turn : PieceColor) :
    List ThreatEdge :=
  (List.range 64).flatMap (fun sq =>
    match pieceAt b sq with
    | some p =>
      if p.color = turn then
        (att b turn.opposite sq).map (fun a => ⟨a, sq, p⟩)
      else []
    | none => [])

/-- `_detect_threats` with its cache: hit returns the cached edges, miss
computes and stores them tagged with the current generation. -/
def detectThreats (att : AttackFn) (gen : Nat) (tc : TCache)
    (fp : Fingerprint) (turn : PieceColor) : List ThreatEdge × TCache :=
  match (tc.find? (fun e => decide (e.1 = fp))).map (·.2) with
  | some tv => (tv.1, tc)
  | none =>
    let ts := computeThreats att fp.1 turn
    (ts, (fp, (ts, gen)) :: tc)

/-- The best-move selection step of `_analyze_position_fast` (lines
395-403): the king-capture fast path is checked first and, when it fires,
returns the capture with the mate sentinel 10000 and no engine invocation;
otherwise `_score_moves` runs. -/
def analyzeBestMove (oracle : AOracle) (gen : Nat) (c : ACache)
    (fp : Fingerprint) (b : Board) (legal : List Move) :
    (Option Move × ℚ) × ACache × Nat :=
  match find_king_capture b legal with
  | some m => ((some m, (10000 : ℚ)), c, 0)
  | none => assistantScoreMoves oracle gen c fp legal

/-- Embedding of `AdvancedAssistant._analyze_position_fast` (lines
391-430): best move (fast path first), eval bar, threats, overlays for
best move and threats, auto-play submission (posted both from
`_highlight_best_move` and from the analysis itself when enabled). -/
def analyze_position_fast (oracle : AOracle) (att : AttackFn)
    (st : AssistState) (fp : Fingerprint) (legal : List Move) (b : Board)
    (turn : PieceColor) : AssistState × ProcOut :=
  let ab := analyzeBestMove oracle st.generation st.moveCache fp b legal
  let st1 := { st with moveCache := ab.2.1 }
  match ab.1.1 with
  | none => (st1, ⟨ab.2.2, none, none, 0, []⟩)
  | some best =>
    let st2 := { st1 with evalBar := some ab.1.2 }
    let dt := detectThreats att st2.generation st2.threatCache fp turn
    let st3 := { st2 with threatCache := dt.2, currentThreats := dt.1 }
    let st4 :=
      if st3.showBestMove then
        { st3 with overlays := st3.overlays ++ [Overlay.bestHighlight best] }
      else st3
    let st5 :=
      if st3.showThreats && !dt.1.isEmpty then
        { st4 with overlays := st4.overlays ++ dt.1.map Overlay.threatArrow }
      else st4
    let subs :=
      (if st3.showBestMove && st3.autoPlay then [best] else []) ++
        (if st3.autoPlay then [best] else [])
    (st5, ⟨ab.2.2, none, some best, ab.1.2, subs⟩)

/-- Embedding of `AdvancedAssistant._process_game_update` (lines 323-389):
drop updates without game data; a new terminal result clears all overlays
and stops; incomplete data (no board, no turn, or no player color) returns
unchanged; otherwise clear stale overlays, apply the turn gate (clearing
and stopping when it fails), drop empty move lists, skip positions whose
fingerprint equals the last highlighted one, and run the fast analysis,
remembering the fingerprint. -/
def process_game_update (oracle : AOracle) (att : AttackFn)
    (st : AssistState) (u : Update) : AssistState × ProcOut :=
  match u.game with
  | none => (st, ⟨0, none, none, 0, []⟩)
  | some g =>
    if g.result ≠ none ∧ g.result ≠ st.gameResult then
      ({ st with gameResult := g.result, overlays := [] }, ⟨0, none, none, 0, []⟩)
    else
      match g.board, g.turn, st.playerColor with
      | some b, some turn, some player =>
        let st1 := { st with overlays := [] }
        if (decide (turn = player) && st.showForPlayer) ||
            (decide (turn ≠ player) && st.showForOpponent) then
          if g.moves.isEmpty then (st1, ⟨0, none, none, 0, []⟩)
          else
            let fp : Fingerprint := (b, turn)
            if st1.lastHighlightedFen = some fp then (st1, ⟨0, none, none, 0, []⟩)
            else
              let st2 := { st1 with
                currentLegalMoves := g.moves
                currentFen := some fp
                overlays := [] }
              let ao := analyze_position_fast oracle att st2 fp g.moves b turn
              ({ ao.1 with lastHighlightedFen := some fp },
                { ao.2 with snapshot := some fp })
        else ({ st1 with overlays := [] }, ⟨0, none, none, 0, []⟩)
      | _, _, _ => (st, ⟨0, none, none, 0, []⟩)

/-- Embedding of the game-id block of `AdvancedAssistant._handle_response`
(lines 994-1022): a traffic event carrying a game id different from the
current one resets the session — new id, last fingerprint and result
forgotten, all caches cleared (the generation ghost counter increments
exactly here).  Events with no id, or with the current id, change
nothing. -/
def handle_response (st : AssistState) (gid : Option String) : AssistState :=
  match gid with
  | none => st
  | some g =>
    if st.gameId = some g then st
    else
      { st with
        gameId := some g
        generation := st.generation + 1
        lastHighlightedFen := none
        gameResult := none
        moveCache := []
        qualityCache := []
        threatCache := [] }

/-- Maximum progressive depth of `_evaluate_moves_progressive` (line 561):
`min(self.search_depth if self.search_depth else 14, 10)`. -/
def progMaxDepth (searchDepth : Nat) : Nat :=
  min (if searchDepth = 0 then 14 else searchDepth) 10

/-- One full pass of the inner move loop at a fixed depth: every candidate
move is re-queried (one engine invocation each) and its score upserted. -/
def depthPass (po : ProgOracle) (d : Nat) (moves : List Move)
    (acc : List (Move × ℚ)) : List (Move × ℚ) :=
  moves.foldl (fun a m => upsert a m (po m d)) acc

/-- One step of the depth ladder of `_evaluate_moves_progressive`: run the
pass, then — once the scores are non-empty and the depth is at least 3 —
publish the scores gathered so far (the `_show_move_qualities` UI update;
the published snapshot is logged). -/
def progStep (po : ProgOracle) (moves : List Move)
    (acc : List (Move × ℚ) × List (Nat × List (Move × ℚ))) (d : Nat) :
    List (Move × ℚ) × List (Nat × List (Move × ℚ)) :=
  let scores := depthPass po d moves acc.1
  let log :=
    if !scores.isEmpty && decide (3 ≤ d) then acc.2 ++ [(d, scores)] else acc.2
  (scores, log)

/-- The external rules library's standard-chess legality check
`move in board.legal_moves` (python-chess), over the board reconstructed
from the fen.  In Drawback Chess this check is stricter than the
server-provided legal-move list: variant-legal candidates such as king
captures are illegal in standard chess and fail it. -/
abbrev LegalFn := Board → Move → Bool

/-- Embedding of the compute path of
`AdvancedAssistant._evaluate_moves_progressive` (lines 535-602, after the
cache check): the candidate moves are first filtered through the external
rules library's standard-chess legality check (`if move in
board.legal_moves`, line 547), silently dropping candidates illegal in
standard chess; with no remaining moves return the empty dict (before any
cache write); otherwise iterate the depth ladder `[1, 3, 6, max_depth]`,
skipping entries above `max_depth`, scoring every remaining move at every
depth, publishing intermediate results at each depth from 3 on.  Returns
the final score dict and the ordered log of published (depth, scores)
snapshots.  The source's per-move exception guard never fires against the
total oracle. -/
def evaluate_moves_progressive (legalFn : LegalFn) (po : ProgOracle)
    (searchDepth : Nat) (b : Board) (moves : List Move) :
    List (Move × ℚ) × List (Nat × List (Move × ℚ)) :=
  let chessMoves := moves.filter (legalFn b)
  if chessMoves.isEmpty then ([], [])
  else
    let m := progMaxDepth searchDepth
    ([1, 3, 6, m].filter (fun d => decide (d ≤ m))).foldl
      (progStep po chessMoves) ([], [])

/-- Embedding of `AdvancedAssistant._analyze_selected_piece` (lines
460-495) restricted to its cache effects: moves from the selected square
are evaluated progressively (cache hit returns the stored dict; when the
standard-legality filter leaves no candidate the evaluation returns the
empty dict before its cache write and the caller stops), the final scores
are stored in `move_quality_cache`, and the authoritative best over the
whole legal-move list is obtained through `_score_moves` (the first depth
milestone fills `move_cache`; later milestones hit it).  Quality overlay
rendering is not part of the modelled state transition. -/
def analyze_selected_piece (oracle : AOracle) (legalFn : LegalFn)
    (po : ProgOracle) (searchDepth : Nat) (st : AssistState) (sq : Nat) :
    AssistState :=
  match st.currentFen with
  | none => st
  | some fp =>
    let pieceMoves := st.currentLegalMoves.filter (fun m => decide (m.start = sq))
    if pieceMoves.isEmpty then st
    else
      let key := smKey fp pieceMoves
      match (st.qualityCache.find? (fun e => decide (e.1 = key))).map (·.2) with
      | some tv =>
        if tv.1.isEmpty then st
        else
          let sm := assistantScoreMoves oracle st.generation st.moveCache fp st.currentLegalMoves
          { st with moveCache := sm.2.1 }
      | none =>
        if (pieceMoves.filter (legalFn fp.1)).isEmpty then st
        else
          let ev := evaluate_moves_progressive legalFn po searchDepth fp.1 pieceMoves
          let stq := { st with
            qualityCache := (key, (ev.1, st.generation)) :: st.qualityCache }
          if ev.1.isEmpty then stq
          else
            let sm := assistantScoreMoves oracle stq.generation stq.moveCache fp stq.currentLegalMoves
            { stq with moveCache := sm.2.1 }

/-- The session-mutating steps of the modelled system: traffic events,
game updates, piece selections. -/
inductive Step (oracle : AOracle) (att : AttackFn) (legalFn : LegalFn)
    (po : ProgOracle) (searchDepth : Nat) : AssistState → AssistState → Prop where
  | http (st : AssistState) (gid : Option String) :
      Step oracle att legalFn po searchDepth st (handle_response st gid)
  | update (st : AssistState) (u : Update) :
      Step oracle att legalFn po searchDepth st (process_game_update oracle att st u).1
  | select (st : AssistState) (sq : Nat) :
      Step oracle att legalFn po searchDepth st
        (analyze_selected_piece oracle legalFn po searchDepth st sq)

/-- Claim C1: whenever the legal-move list contains a move whose
destination square holds the opponent king, the best-move computation of
`_analyze_position_fast` returns a king-capturing move — the unique such
move when there is only one — with the mate sentinel score 10000 and
performs zero external engine invocations: the king-capture scan runs
before any engine call.  The side hypothesis `hself` states that no legal
move lands on a piece of the side to move (legal moves never capture own
pieces), which pins the captured king to the opponent. -/
theorem king_capture_fast_path (oracle : AOracle) (att : AttackFn)
    (st : AssistState) (fp : Fingerprint) (legal : List Move) (b : Board)
    (turn : PieceColor) (m : Move)
    (hm : m ∈ legal)
    (hk : pieceAt b m.stop = some ⟨turn.opposite, PieceKind.king⟩)
    (hself : ∀ m' ∈ legal, ∀ p, pieceAt b m'.stop = some p → p.color ≠ turn) :
    ∃ m', (analyze_position_fast oracle att st fp legal b turn).2.best = some m' ∧
      m' ∈ legal ∧
      pieceAt b m'.stop = some ⟨turn.opposite, PieceKind.king⟩ ∧
      (analyze_position_fast oracle att st fp legal b turn).2.score = 10000 ∧
      (analyze_position_fast oracle att st fp legal b turn).2.engineCalls = 0 ∧
      ((∀ m'' ∈ legal,
          (∃ p, pieceAt b m''.stop = some p ∧ p.kind = PieceKind.king) → m'' = m) →
        (analyze_position_fast oracle att st fp legal b turn).2.best = some m) := by
  have hpm : (fun m' : Move =>
      match pieceAt b m'.stop with
      | some p => decide (p.kind = PieceKind.king)
      | none => false) m = true := by
    simp [hk]
  have hsome : (find_king_capture b legal).isSome := by
    unfold find_king_capture
    exact List.find?_isSome.mpr ⟨m, hm, hpm⟩
  obtain ⟨m0, hfk⟩ := Option.isSome_iff_exists.mp hsome
  have hm0mem : m0 ∈ legal := List.mem_of_find?_eq_some hfk
  have hpred := List.find?_some hfk
  obtain ⟨p, hp, hking⟩ : ∃ p, pieceAt b m0.stop = some p ∧ p.kind = PieceKind.king := by
    revert hpred
    cases hpa : pieceAt b m0.stop with
    | none => intro h; simp at h
    | some q =>
      intro h
      simp only [decide_eq_true_eq] at h
      exact ⟨q, rfl, h⟩
  have hcolor : p.color = turn.opposite := by
    have hne := hself m0 hm0mem p hp
    cases turn <;> cases hc : p.color <;>
      simp [PieceColor.opposite] <;> simp [hc] at hne <;> try exact hne rfl
  have hpk : pieceAt b m0.stop = some ⟨turn.opposite, PieceKind.king⟩ := by
    rw [hp]
    congr 1
    cases p
    simp_all
  have hproj :
      (analyze_position_fast oracle att st fp legal b turn).2.best = some m0 ∧
      (analyze_position_fast oracle att st fp legal b turn).2.score = 10000 ∧
      (analyze_position_fast oracle att st fp legal b turn).2.engineCalls = 0 := by
    simp [analyze_position_fast, analyzeBestMove, hfk]
  refine ⟨m0, hproj.1, hm0mem, hpk, hproj.2.1, hproj.2.2, ?_⟩
  intro huniq
  have : m0 = m := huniq m0 hm0mem ⟨p, hp, hking⟩
  rw [hproj.1, this]

/-- Concrete inputs shared by the orchestrator witnesses: a tiny position,
an attack oracle reporting no attackers, and a default-settings session. -/
def exAttack : AttackFn := fun _ _ _ => []

/-- A session state with the default settings of `AdvancedAssistant`. -/
def exState : AssistState :=
  { gameId := some "g1", generation := 1, playerColor := some PieceColor.white,
    gameResult := none, showForPlayer := true, showForOpponent := false,
    showThreats := true, showBestMove := true, autoPlay := false,
    lastHighlightedFen := none, currentFen := none, currentLegalMoves := [],
    currentThreats := [], moveCache := [], qualityCache := [],
    threatCache := [], overlays := [], evalBar := none }

/-- Board with the black king on square 4 (e1) and the white king on 60. -/
def exBoardK : Board :=
  [(4, ⟨PieceColor.black, PieceKind.king⟩), (60, ⟨PieceColor.white, PieceKind.king⟩)]

/-- Witness for C1: the scenario of the spec — the move 60→4 (e8e1)
captures the king on e1 belonging to the side not to move; the analysis
returns it with score 10000 and zero engine invocations. -/
theorem king_capture_fast_path_witness :
    (analyze_position_fast (fun _ => (none, 0)) exAttack exState
      (exBoardK, PieceColor.white) [⟨60, 4⟩] exBoardK PieceColor.white).2.best =
        some ⟨60, 4⟩ ∧
    (analyze_position_fast (fun _ => (none, 0)) exAttack exState
      (exBoardK, PieceColor.white) [⟨60, 4⟩] exBoardK PieceColor.white).2.score = 10000 ∧
    (analyze_position_fast (fun _ => (none, 0)) exAttack exState
      (exBoardK, PieceColor.white) [⟨60, 4⟩] exBoardK PieceColor.white).2.engineCalls = 0 := by
  have h := king_capture_fast_path (fun _ => (none, 0)) exAttack exState
    (exBoardK, PieceColor.white) [⟨60, 4⟩] exBoardK PieceColor.white ⟨60, 4⟩
    (by decide) (by decide) (by decide)
  obtain ⟨m', hbest, hmem, hpk, hscore, hcalls, huniq⟩ := h
  exact ⟨huniq (by decide), hscore, hcalls⟩

/-- Claim C5: an update whose side to move is not the player's color while
`showForOpponent` is false performs zero engine calls, clears all active
visual overlays, posts nothing, and returns without producing a position
snapshot; and in general processing continues (produces a snapshot) only
when `(turn == player && showForPlayer) || (turn != player &&
showForOpponent)` holds. -/
theorem turn_gate (oracle : AOracle) (att : AttackFn) (st : AssistState)
    (u : Update) (g : GameData) (b : Board) (t p : PieceColor)
    (hg : u.game = some g) (hb : g.board = some b) (ht : g.turn = some t)
    (hp : st.playerColor = some p) (htp : t ≠ p)
    (hso : st.showForOpponent = false) :
    ((process_game_update oracle att st u).2.engineCalls = 0 ∧
     (process_game_update oracle att st u).2.snapshot = none ∧
     (process_game_update oracle att st u).2.submits = [] ∧
     (process_game_update oracle att st u).1.overlays = []) ∧
    (∀ (st' : AssistState) (u' : Update) (g' : GameData) (t' p' : PieceColor),
      u'.game = some g' → g'.turn = some t' → st'.playerColor = some p' →
      (process_game_update oracle att st' u').2.snapshot ≠ none →
      ((t' = p' ∧ st'.showForPlayer = true) ∨
        (t' ≠ p' ∧ st'.showForOpponent = true))) := by
  constructor
  · have hd : decide (t = p) = false := decide_eq_false htp
    simp only [process_game_update, hg]
    split
    · refine ⟨?_, ?_, ?_, ?_⟩ <;> trivial
    · rw [hb, ht, hp]
      simp only [hd, hso, Bool.false_and, Bool.and_false, Bool.or_self,
        Bool.false_eq_true, if_false]
      refine ⟨?_, ?_, ?_, ?_⟩ <;> trivial
  · intro st' u' g' t' p' hg' ht' hp' hsnap
    simp only [process_game_update, hg'] at hsnap
    by_cases hres : (g'.result ≠ none ∧ g'.result ≠ st'.gameResult)
    · rw [if_pos hres] at hsnap
      exact absurd rfl hsnap
    · rw [if_neg hres] at hsnap
      cases hbb : g'.board with
      | none =>
        rw [hbb, ht', hp'] at hsnap
        exact absurd rfl hsnap
      | some b' =>
        rw [hbb, ht', hp'] at hsnap
        by_cases hgate : ((decide (t' = p') && st'.showForPlayer) ||
            (decide (¬ t' = p') && st'.showForOpponent)) = true
        · rcases Bool.or_eq_true_iff.mp hgate with hc | hc
          · left
            have := Bool.and_eq_true_iff.mp hc
            exact ⟨of_decide_eq_true this.1, this.2⟩
          · right
            have := Bool.and_eq_true_iff.mp hc
            exact ⟨of_decide_eq_true this.1, this.2⟩
        · simp only [Bool.not_eq_true] at hgate
          simp only [hgate, Bool.false_eq_true, if_false] at hsnap
          exact absurd rfl hsnap

/-- Witness for C5: an opponent-turn update against default settings. -/
theorem turn_gate_witness :
    (process_game_update (fun _ => (none, 0)) exAttack exState
      ⟨some ⟨some exBoardK, some PieceColor.black, 0, none, [⟨4, 12⟩]⟩⟩).2.engineCalls = 0 ∧
    (process_game_update (fun _ => (none, 0)) exAttack exState
      ⟨some ⟨some exBoardK, some PieceColor.black, 0, none, [⟨4, 12⟩]⟩⟩).1.overlays = [] := by
  have h := turn_gate (fun _ => (none, 0)) exAttack exState
    ⟨some ⟨some exBoardK, some PieceColor.black, 0, none, [⟨4, 12⟩]⟩⟩
    ⟨some exBoardK, some PieceColor.black, 0, none, [⟨4, 12⟩]⟩
    exBoardK PieceColor.black PieceColor.white rfl rfl rfl rfl
    (by decide) rfl
  exact ⟨h.1.1, h.1.2.2.2⟩

/-- A position used by the repeated-update scenario: white pawn on 12 (e2),
kings on 4 and 60. -/
def exBoardP : Board :=
  [(12, ⟨PieceColor.white, PieceKind.pawn⟩),
   (4, ⟨PieceColor.white, PieceKind.king⟩),
   (60, ⟨PieceColor.black, PieceKind.king⟩)]

/-- The update delivering that position with white to move and the single
legal move 12→20 (e2e3). -/
def exUpdate : Update :=
  ⟨some ⟨some exBoardP, some PieceColor.white, 2, none, [⟨12, 20⟩]⟩⟩

/-- An engine that recommends 12→20 with score 37. -/
def exOracleP : AOracle := fun _ => (some ⟨12, 20⟩, 37)

/-- Counterexample for C8: delivering the same board and side to move twice
in a row, the second update performs zero engine invocations — but the
rendered output is NOT identical to the output after the first update:
`_process_game_update` clears all overlays at the start of every update and
the early fingerprint return never redraws them, so the best-move highlight
drawn after the first update is gone after the second. -/
theorem repeat_update_counterexample :
    (process_game_update exOracleP exAttack
        (process_game_update exOracleP exAttack exState exUpdate).1
        exUpdate).2.engineCalls = 0 ∧
    (process_game_update exOracleP exAttack exState exUpdate).1.overlays =
      [Overlay.bestHighlight ⟨12, 20⟩] ∧
    (process_game_update exOracleP exAttack
        (process_game_update exOracleP exAttack exState exUpdate).1
        exUpdate).1.overlays = [] := by
  refine ⟨?_, ?_, ?_⟩ <;> decide

/-- Claim C8 as amended: an update whose fingerprint equals the last
processed one (the second of two consecutive identical updates) causes no
engine invocation, no snapshot, no submission and no new drawing — but
instead of leaving the rendered output identical, processing clears all
overlays (the stale-overlay clear that runs on every update) and returns
with the state otherwise unchanged. -/
theorem repeat_update_amended (oracle : AOracle) (att : AttackFn)
    (st : AssistState) (u : Update) (g : GameData) (b : Board)
    (t p : PieceColor)
    (hg : u.game = some g) (hr : g.result = none) (hb : g.board = some b)
    (ht : g.turn = some t) (hp : st.playerColor = some p)
    (hgate : (t = p ∧ st.showForPlayer = true) ∨
      (t ≠ p ∧ st.showForOpponent = true))
    (hme : g.moves.isEmpty = false)
    (hlast : st.lastHighlightedFen = some (b, t)) :
    process_game_update oracle att st u =
      ({ st with overlays := [] }, ⟨0, none, none, 0, []⟩) := by
  have hres : ¬(g.result ≠ none ∧ g.result ≠ st.gameResult) := by
    rw [hr]; simp
  have hgb : ((decide (t = p) && st.showForPlayer) ||
      (decide (¬ t = p) && st.showForOpponent)) = true := by
    rcases hgate with ⟨h1, h2⟩ | ⟨h1, h2⟩ <;> simp [h1, h2]
  simp only [process_game_update, hg, if_neg hres, hb, ht, hp, hgb, if_true,
    hme, Bool.false_eq_true, if_false]
  rw [if_pos]
  exact hlast

/-- Witness for the amended C8: a concrete session whose last processed
fingerprint matches the delivered update. -/
theorem repeat_update_amended_witness :
    process_game_update exOracleP exAttack
        { exState with lastHighlightedFen := some (exBoardP, PieceColor.white) }
        exUpdate =
      ({ exState with
          lastHighlightedFen := some (exBoardP, PieceColor.white)
          overlays := [] }, ⟨0, none, none, 0, []⟩) :=
  repeat_update_amended exOracleP exAttack
    { exState with lastHighlightedFen := some (exBoardP, PieceColor.white) }
    exUpdate ⟨some exBoardP, some PieceColor.white, 2, none, [⟨12, 20⟩]⟩
    exBoardP PieceColor.white PieceColor.white rfl rfl rfl rfl rfl
    (Or.inl ⟨rfl, rfl⟩) rfl rfl

/-! ## `MoveManager.submit_move` (assistant/core/move_manager.py lines 16-64) -/

/-- The AutoPlayRecord kept by `MoveManager`: `last_played_move`
(initialized None) and `last_played_ply` (initialized -1), set only on a
successful submission. -/
structure MMState where
  lastPlayedMove : Option String
  lastPlayedPly : Int
deriving DecidableEq

/-- The initial `MoveManager` record. -/
def mmInit : MMState := ⟨none, -1⟩

/-- Outcome of the HTTP POST to the `/move` endpoint: transport failure
(non-ok status or exception), rejection (`success` false), or success. -/
inductive Ack where
  | httpFail
  | rejected
  | ok
deriving DecidableEq

/-- The identifiers `submit_move` guards on; `none` models falsy values. -/
structure SubmitCtx where
  gameId : Option String
  color : Option String
  username : Option String
  port : Option Nat

/-- Result of one `submit_move` call: the record afterwards, the returned
boolean, and whether an HTTP POST was issued. -/
structure SubmitOut where
  st : MMState
  accepted : Bool
  posted : Bool
deriving DecidableEq

/-- Embedding of `MoveManager.submit_move`: refuse (no post) on missing
identifiers; refuse (no post) when `(move, ply)` equals the last
successfully played pair; otherwise post — on success record the pair and
return True, on rejection or transport failure leave the record unchanged
and return False. -/
def submit_move (st : MMState) (ctx : SubmitCtx) (uci : String) (ply : Int)
    (ack : Ack) : SubmitOut :=
  if ctx.gameId = none ∨ ctx.username = none ∨ ctx.color = none ∨ ctx.port = none then
    ⟨st, false, false⟩
  else if st.lastPlayedMove = some uci ∧ st.lastPlayedPly = ply then
    ⟨st, false, false⟩
  else
    match ack with
    | .ok => ⟨⟨some uci, ply⟩, true, true⟩
    | .rejected => ⟨st, false, true⟩
    | .httpFail => ⟨st, false, true⟩

/-- A sequence of submission attempts, each `(move, ply, serverAck)`,
processed in order; returns the final record and the returned booleans. -/
def runSubmits (ctx : SubmitCtx) : MMState → List (String × Int × Ack) →
    MMState × List Bool
  | st, [] => (st, [])
  | st, (u, p, a) :: t =>
    let o := submit_move st ctx u p a
    let rest := runSubmits ctx o.st t
    (rest.1, o.accepted :: rest.2)

/-- How many attempts at the given ply returned True. -/
def successCount (reqs : List (String × Int × Ack)) (results : List Bool)
    (ply : Int) : Nat :=
  ((reqs.zip results).filter (fun e => decide (e.1.2.1 = ply) && e.2)).length

/-- A complete submission context. -/
def exCtx : SubmitCtx := ⟨some "g1", some "white", some "alice", some 5003⟩

/-- Counterexample for C9: two different moves submitted at the same ply
both succeed — `submit_move` only suppresses an exact duplicate of the last
played `(move, ply)` pair, so a session can record two successful
submissions for one ply. -/
theorem duplicate_ply_counterexample :
    1 < successCount [("e2e4", 5, Ack.ok), ("d2d4", 5, Ack.ok)]
      (runSubmits exCtx mmInit [("e2e4", 5, Ack.ok), ("d2d4", 5, Ack.ok)]).2 5 := by
  decide

/-- Claim C9 as amended: the auto-play submit operation refuses to submit —
returns False without posting, record unchanged — whenever `(move, ply)`
equals the last successfully submitted pair recorded in the AutoPlayRecord.
This suppresses exact consecutive duplicates but does not bound a ply to a
single successful submission: a different move at the same ply (or the same
move after an intervening pair) can still succeed. -/
theorem duplicate_suppression (st : MMState) (ctx : SubmitCtx) (uci : String)
    (ply : Int) (ack : Ack)
    (h1 : st.lastPlayedMove = some uci) (h2 : st.lastPlayedPly = ply) :
    submit_move st ctx uci ply ack = ⟨st, false, false⟩ := by
  unfold submit_move
  split
  · rfl
  · rw [if_pos ⟨h1, h2⟩]

/-- Witness for the amended C9: a concrete duplicate of the last played
pair is refused. -/
theorem duplicate_suppression_witness :
    submit_move ⟨some "e2e4", 5⟩ exCtx "e2e4" 5 Ack.ok =
      ⟨⟨some "e2e4", 5⟩, false, false⟩ :=
  duplicate_suppression ⟨some "e2e4", 5⟩ exCtx "e2e4" 5 Ack.ok rfl rfl

/-! ## Claim C7: the progressive depth ladder -/

/-- Whether the score dict contains an entry for the move. -/
def hasKey (l : List (Move × ℚ)) (m : Move) : Bool :=
  l.any (fun e => decide (e.1 = m))

theorem hasKey_upsert_preserved (l : List (Move × ℚ)) (m x : Move) (s : ℚ)
    (h : hasKey l x = true) : hasKey (upsert l m s) x = true := by
  unfold upsert
  split
  · simp only [hasKey, List.any_eq_true] at h ⊢
    obtain ⟨e, he, hex⟩ := h
    by_cases hem : e.1 = m
    · refine ⟨(m, s), List.mem_map.mpr ⟨e, he, by simp [hem]⟩, ?_⟩
      simp only [decide_eq_true_eq] at hex ⊢
      rw [← hex, hem]
    · exact ⟨e, List.mem_map.mpr ⟨e, he, by simp [hem]⟩, hex⟩
  · simp only [hasKey, List.any_append] at *
    simp [h]

theorem hasKey_upsert_self (l : List (Move × ℚ)) (m : Move) (s : ℚ) :
    hasKey (upsert l m s) m = true := by
  unfold upsert
  split
  · next hc =>
    simp only [hasKey, List.any_eq_true] at hc ⊢
    obtain ⟨e, he, hem⟩ := hc
    simp only [decide_eq_true_eq] at hem
    exact ⟨(m, s), List.mem_map.mpr ⟨e, he, by simp [hem]⟩, by simp⟩
  · simp [hasKey, List.any_append]

theorem hasKey_upsert_source (l : List (Move × ℚ)) (m x : Move) (s : ℚ)
    (h : hasKey (upsert l m s) x = true) : hasKey l x = true ∨ x = m := by
  unfold upsert at h
  split at h
  · next hc =>
    simp only [hasKey, List.any_eq_true] at h ⊢
    obtain ⟨e', he', hex⟩ := h
    obtain ⟨e, he, hfe⟩ := List.mem_map.mp he'
    simp only [decide_eq_true_eq] at hex
    by_cases hem : e.1 = m
    · simp only [if_pos hem] at hfe
      right; rw [← hex, ← hfe]
    · simp only [if_neg hem] at hfe
      left; exact ⟨e, he, by rw [hfe]; exact decide_eq_true hex⟩
  · simp only [hasKey, List.any_append, Bool.or_eq_true] at h
    rcases h with h | h
    · left; exact h
    · right
      simp only [List.any_cons, List.any_nil, Bool.or_false,
        decide_eq_true_eq] at h
      exact h.symm

theorem hasKey_depthPass_preserved (po : ProgOracle) (d : Nat)
    (moves : List Move) (x : Move) :
    ∀ acc, hasKey acc x = true → hasKey (depthPass po d moves acc) x = true := by
  induction moves with
  | nil => intro acc h; exact h
  | cons m0 rest ih =>
    intro acc h
    exact ih (upsert acc m0 (po m0 d)) (hasKey_upsert_preserved acc m0 x (po m0 d) h)

theorem hasKey_depthPass_of_mem (po : ProgOracle) (d : Nat)
    (moves : List Move) (x : Move) (hx : x ∈ moves) :
    ∀ acc, hasKey (depthPass po d moves acc) x = true := by
  induction moves with
  | nil => cases hx
  | cons m0 rest ih =>
    intro acc
    rcases List.mem_cons.mp hx with h | h
    · subst h
      exact hasKey_depthPass_preserved po d rest x (upsert acc x (po x d))
        (hasKey_upsert_self acc x (po x d))
    · exact ih h (upsert acc m0 (po m0 d))

theorem hasKey_depthPass_source (po : ProgOracle) (d : Nat)
    (moves : List Move) (x : Move) :
    ∀ acc, hasKey (depthPass po d moves acc) x = true →
      hasKey acc x = true ∨ x ∈ moves := by
  induction moves with
  | nil => intro acc h; exact Or.inl h
  | cons m0 rest ih =>
    intro acc h
    rcases ih (upsert acc m0 (po m0 d)) h with h' | h'
    · rcases hasKey_upsert_source acc m0 x (po m0 d) h' with h'' | h''
      · exact Or.inl h''
      · exact Or.inr (h'' ▸ List.mem_cons_self m0 rest)
    · exact Or.inr (List.mem_cons_of_mem m0 h')

theorem depthPass_not_isEmpty (po : ProgOracle) (d : Nat) (moves : List Move)
    (acc : List (Move × ℚ)) (h : moves ≠ []) :
    (depthPass po d moves acc).isEmpty = false := by
  cases moves with
  | nil => exact absurd rfl h
  | cons m0 rest =>
    have hk := hasKey_depthPass_of_mem po d (m0 :: rest) m0
      (List.mem_cons_self m0 rest) acc
    cases hl : depthPass po d (m0 :: rest) acc with
    | nil => rw [hl] at hk; simp [hasKey] at hk
    | cons a t => simp [List.isEmpty]

/-- A fact of the external rules library used to instantiate it in the
counterexample: standard chess never allows capturing a king, so
python-chess's `board.legal_moves` excludes every move whose destination
square holds a king, while quiet moves to empty squares of this position
pass. -/
def exLegalFn : LegalFn := fun b m =>
  match pieceAt b m.stop with
  | some p => !(decide (p.kind = PieceKind.king))
  | none => true

/-- Counterexample for C7: over the candidate subset [60→12, 60→4] on the
board whose square 4 holds the opponent king, the progressive evaluation
silently drops the variant-legal king-capture candidate 60→4 — it fails
the `if move in board.legal_moves` standard-chess check at line 547 — so
although the ladder publishes at depths 3, 6 and 10, no published
snapshot carries a score for that candidate move: the evaluation does not
re-query each candidate move. -/
theorem progressive_filter_counterexample :
    ((⟨60, 4⟩ : Move) ∈ [(⟨60, 12⟩ : Move), ⟨60, 4⟩]) ∧
    ((evaluate_moves_progressive exLegalFn (fun _ _ => 5) 10 exBoardK
        [⟨60, 12⟩, ⟨60, 4⟩]).2.map Prod.fst = [3, 6, 10]) ∧
    (∀ e ∈ (evaluate_moves_progressive exLegalFn (fun _ _ => 5) 10 exBoardK
        [⟨60, 12⟩, ⟨60, 4⟩]).2, hasKey e.2 ⟨60, 4⟩ = false) := by
  refine ⟨by decide, by decide, by decide⟩

/-- Claim C7 as amended: the progressive per-move evaluation first filters
the candidate subset through the external rules library's standard-chess
legality check (candidates illegal in standard chess, such as king
captures, are silently dropped), then iterates the depth ladder 1, 3, 6,
maxDepth (with `maxDepth = min(search_depth, 10)`), re-querying each
remaining candidate at each depth; the publication callback fires exactly
after the depths from 3 on — for ladder [1,3,6,10] at depths 3, 6 and
10 — and each published snapshot holds a score for every remaining
candidate and nothing else, so the set of evaluated moves never decreases
from one publication to the next. -/
theorem progressive_ladder_filtered (legalFn : LegalFn) (po : ProgOracle)
    (searchDepth : Nat) (b : Board) (moves : List Move)
    (hmov : moves.filter (legalFn b) ≠ []) (hsd : 7 ≤ searchDepth) :
    ((evaluate_moves_progressive legalFn po searchDepth b moves).2.map Prod.fst =
      [3, 6, progMaxDepth searchDepth]) ∧
    (∀ e ∈ (evaluate_moves_progressive legalFn po searchDepth b moves).2,
      ∀ m ∈ moves.filter (legalFn b), hasKey e.2 m = true) ∧
    (∀ e ∈ (evaluate_moves_progressive legalFn po searchDepth b moves).2,
      ∀ x : Move, hasKey e.2 x = true → x ∈ moves.filter (legalFn b)) ∧
    (∀ e ∈ (evaluate_moves_progressive legalFn po searchDepth b moves).2,
      ∀ e' ∈ (evaluate_moves_progressive legalFn po searchDepth b moves).2,
      ∀ x : Move, hasKey e.2 x = true → hasKey e'.2 x = true) := by
  set fm := moves.filter (legalFn b) with hfm
  have hmE : fm.isEmpty = false := by
    cases hc : fm with
    | nil => exact absurd hc hmov
    | cons a t => rfl
  have hmovne : fm ≠ [] := hmov
  have hsd0 : searchDepth ≠ 0 := by omega
  have hmd : progMaxDepth searchDepth = min searchDepth 10 := by
    unfold progMaxDepth; rw [if_neg hsd0]
  have h7 : 7 ≤ progMaxDepth searchDepth := by rw [hmd]; omega
  set md := progMaxDepth searchDepth with hmdset
  have hfil : [1, 3, 6, md].filter (fun d => decide (d ≤ md)) = [1, 3, 6, md] := by
    have d1 : decide (1 ≤ md) = true := decide_eq_true (by omega)
    have d3 : decide (3 ≤ md) = true := decide_eq_true (by omega)
    have d6 : decide (6 ≤ md) = true := decide_eq_true (by omega)
    have dm : decide (md ≤ md) = true := decide_eq_true (le_refl md)
    simp [List.filter, d1, d3, d6, dm]
  have hm3 : decide (3 ≤ md) = true := decide_eq_true (by omega)
  set s1 := depthPass po 1 fm [] with hs1
  set s2 := depthPass po 3 fm s1 with hs2
  set s3 := depthPass po 6 fm s2 with hs3
  set s4 := depthPass po md fm s3 with hs4
  have hne2 : s2.isEmpty = false := depthPass_not_isEmpty po 3 fm s1 hmovne
  have hne3 : s3.isEmpty = false := depthPass_not_isEmpty po 6 fm s2 hmovne
  have hne4 : s4.isEmpty = false := depthPass_not_isEmpty po md fm s3 hmovne
  have hp1 : progStep po fm ([], []) 1 = (s1, []) := by
    simp [progStep, hs1, depthPass]
  have hp2 : progStep po fm (s1, []) 3 = (s2, [(3, s2)]) := by
    simp [progStep, ← hs2, hne2]
  have hp3 : progStep po fm (s2, [(3, s2)]) 6 = (s3, [(3, s2), (6, s3)]) := by
    simp [progStep, ← hs3, hne3]
  have hp4 : progStep po fm (s3, [(3, s2), (6, s3)]) md =
      (s4, [(3, s2), (6, s3), (md, s4)]) := by
    simp [progStep, ← hs4, hne4, hm3]
  have hlog : evaluate_moves_progressive legalFn po searchDepth b moves =
      (s4, [(3, s2), (6, s3), (md, s4)]) := by
    simp only [evaluate_moves_progressive]
    rw [← hfm, hmE]
    simp only [Bool.false_eq_true, if_false, ← hmdset, hfil]
    rw [List.foldl_cons, hp1, List.foldl_cons, hp2, List.foldl_cons, hp3,
      List.foldl_cons, hp4, List.foldl_nil]
  have hmem : ∀ e ∈ (evaluate_moves_progressive legalFn po searchDepth b moves).2,
      ∀ m ∈ fm, hasKey e.2 m = true := by
    rw [hlog]
    intro e he m hm
    simp only [List.mem_cons, List.not_mem_nil, or_false] at he
    rcases he with h | h | h <;> subst h
    · exact hasKey_depthPass_of_mem po 3 fm m hm s1
    · exact hasKey_depthPass_of_mem po 6 fm m hm s2
    · exact hasKey_depthPass_of_mem po md fm m hm s3
  have hsub : ∀ e ∈ (evaluate_moves_progressive legalFn po searchDepth b moves).2,
      ∀ x : Move, hasKey e.2 x = true → x ∈ fm := by
    rw [hlog]
    have h1 : ∀ x : Move, hasKey s1 x = true → x ∈ fm := by
      intro x hx
      rcases hasKey_depthPass_source po 1 fm x [] hx with h | h
      · simp [hasKey] at h
      · exact h
    have h2 : ∀ x : Move, hasKey s2 x = true → x ∈ fm := by
      intro x hx
      rcases hasKey_depthPass_source po 3 fm x s1 hx with h | h
      · exact h1 x h
      · exact h
    have h3 : ∀ x : Move, hasKey s3 x = true → x ∈ fm := by
      intro x hx
      rcases hasKey_depthPass_source po 6 fm x s2 hx with h | h
      · exact h2 x h
      · exact h
    have h4 : ∀ x : Move, hasKey s4 x = true → x ∈ fm := by
      intro x hx
      rcases hasKey_depthPass_source po md fm x s3 hx with h | h
      · exact h3 x h
      · exact h
    intro e he x hx
    simp only [List.mem_cons, List.not_mem_nil, or_false] at he
    rcases he with h | h | h <;> subst h
    · exact h2 x hx
    · exact h3 x hx
    · exact h4 x hx
  refine ⟨?_, hmem, hsub, ?_⟩
  · rw [hlog]; rfl
  · intro e he e' he' x hx
    exact hmem e' he' x (hsub e he x hx)

/-- Witness for the amended C7: one candidate move, passing the legality
filter, at search depth 10 — the ladder is [1, 3, 6, 10] and snapshots are
published at depths 3, 6 and 10, each containing the move. -/
theorem progressive_ladder_filtered_witness :
    ((evaluate_moves_progressive (fun _ _ => true) (fun _ _ => 5) 10 []
        [⟨12, 20⟩]).2.map Prod.fst = [3, 6, 10]) ∧
    (∀ e ∈ (evaluate_moves_progressive (fun _ _ => true) (fun _ _ => 5) 10 []
        [⟨12, 20⟩]).2, hasKey e.2 ⟨12, 20⟩ = true) := by
  have h := progressive_ladder_filtered (fun _ _ => true) (fun _ _ => 5) 10 []
    [⟨12, 20⟩] (by decide) (by norm_num)
  refine ⟨h.1, ?_⟩
  intro e he
  exact h.2.1 e he ⟨12, 20⟩ (by decide)

/-! ## Claim C4: game-id change resets the session and its caches -/

theorem assistantScoreMoves_mem (oracle : AOracle) (gen : Nat) (c : ACache)
    (fp : Fingerprint) (ms : List Move) :
    ∀ e ∈ (assistantScoreMoves oracle gen c fp ms).2.1,
      e ∈ c ∨ e.2.2 = gen := by
  intro e he
  simp only [assistantScoreMoves] at he
  cases hl : (c.find? (fun x => decide (x.1 = smKey fp ms))).map (·.2) with
  | some tv =>
    rw [hl] at he
    exact Or.inl he
  | none =>
    rw [hl] at he
    cases hm : ms.isEmpty with
    | true =>
      rw [hm] at he
      simp at he
      exact Or.inl he
    | false =>
      rw [hm] at he
      simp only [Bool.false_eq_true, if_false] at he
      cases ho : oracle (smKey fp ms) with
      | mk pv s =>
        rw [ho] at he
        cases pv with
        | none => exact Or.inl he
        | some bm =>
          rcases List.mem_cons.mp he with h | h
          · exact Or.inr (by rw [h])
          · exact Or.inl h

theorem detectThreats_mem (att : AttackFn) (gen : Nat) (tc : TCache)
    (fp : Fingerprint) (turn : PieceColor) :
    ∀ e ∈ (detectThreats att gen tc fp turn).2, e ∈ tc ∨ e.2.2 = gen := by
  intro e he
  simp only [detectThreats] at he
  cases hl : (tc.find? (fun x => decide (x.1 = fp))).map (·.2) with
  | some tv =>
    rw [hl] at he
    exact Or.inl he
  | none =>
    rw [hl] at he
    rcases List.mem_cons.mp he with h | h
    · exact Or.inr (by rw [h])
    · exact Or.inl h

theorem analyzeBestMove_mem (oracle : AOracle) (gen : Nat) (c : ACache)
    (fp : Fingerprint) (b : Board) (legal : List Move) :
    ∀ e ∈ (analyzeBestMove oracle gen c fp b legal).2.1,
      e ∈ c ∨ e.2.2 = gen := by
  intro e he
  unfold analyzeBestMove at he
  cases hf : find_king_capture b legal with
  | some m =>
    rw [hf] at he
    exact Or.inl he
  | none =>
    rw [hf] at he
    exact assistantScoreMoves_mem oracle gen c fp legal e he

theorem analyze_position_fast_preserves (oracle : AOracle) (att : AttackFn)
    (st : AssistState) (fp : Fingerprint) (legal : List Move) (b : Board)
    (turn : PieceColor) :
    (analyze_position_fast oracle att st fp legal b turn).1.generation =
      st.generation ∧
    (analyze_position_fast oracle att st fp legal b turn).1.qualityCache =
      st.qualityCache ∧
    (∀ e ∈ (analyze_position_fast oracle att st fp legal b turn).1.moveCache,
      e ∈ st.moveCache ∨ e.2.2 = st.generation) ∧
    (∀ e ∈ (analyze_position_fast oracle att st fp legal b turn).1.threatCache,
      e ∈ st.threatCache ∨ e.2.2 = st.generation) := by
  simp only [analyze_position_fast]
  cases hab : (analyzeBestMove oracle st.generation st.moveCache fp b legal).1.1 with
  | none =>
    simp only [hab]
    refine ⟨by trivial, by trivial, ?_, ?_⟩
    · intro e he
      exact analyzeBestMove_mem oracle st.generation st.moveCache fp b legal e he
    · intro e he
      exact Or.inl he
  | some best =>
    simp only [hab]
    constructor
    · split <;> split <;> trivial
    constructor
    · split <;> split <;> trivial
    constructor
    · intro e he
      have : e ∈ (analyzeBestMove oracle st.generation st.moveCache fp b legal).2.1 := by
        revert he
        split <;> split <;> exact fun h => h
      exact analyzeBestMove_mem oracle st.generation st.moveCache fp b legal e this
    · intro e he
      have : e ∈ (detectThreats att st.generation st.threatCache fp turn).2 := by
        revert he
        split <;> split <;> exact fun h => h
      exact detectThreats_mem att st.generation st.threatCache fp turn e this

theorem process_game_update_preserves (oracle : AOracle) (att : AttackFn)
    (st : AssistState) (u : Update) :
    (process_game_update oracle att st u).1.generation = st.generation ∧
    (∀ e ∈ (process_game_update oracle att st u).1.moveCache,
      e ∈ st.moveCache ∨ e.2.2 = st.generation) ∧
    (∀ e ∈ (process_game_update oracle att st u).1.qualityCache,
      e ∈ st.qualityCache ∨ e.2.2 = st.generation) ∧
    (∀ e ∈ (process_game_update oracle att st u).1.threatCache,
      e ∈ st.threatCache ∨ e.2.2 = st.generation) := by
  obtain ⟨og⟩ := u
  cases og with
  | none =>
    exact ⟨rfl, fun e he => Or.inl he, fun e he => Or.inl he,
      fun e he => Or.inl he⟩
  | some g =>
    obtain ⟨ob, ot, gply, gres, gmoves⟩ := g
    simp only [process_game_update]
    split
    · exact ⟨rfl, fun e he => Or.inl he, fun e he => Or.inl he,
        fun e he => Or.inl he⟩
    · cases ob with
      | none =>
        cases ot <;> cases hp : st.playerColor <;>
          exact ⟨rfl, fun e he => Or.inl he, fun e he => Or.inl he,
            fun e he => Or.inl he⟩
      | some b =>
        cases ot with
        | none =>
          cases hp : st.playerColor <;>
            exact ⟨rfl, fun e he => Or.inl he, fun e he => Or.inl he,
              fun e he => Or.inl he⟩
        | some turn =>
          cases hp : st.playerColor with
          | none =>
            exact ⟨rfl, fun e he => Or.inl he, fun e he => Or.inl he,
              fun e he => Or.inl he⟩
          | some player =>
            by_cases hgate : ((decide (turn = player) && st.showForPlayer) ||
                (decide (turn ≠ player) && st.showForOpponent)) = true
            · by_cases hmv : gmoves.isEmpty = true
              · simp only [if_pos hgate, if_pos hmv]
                exact ⟨by trivial, fun e he => Or.inl he, fun e he => Or.inl he,
                  fun e he => Or.inl he⟩
              · by_cases hfen : st.lastHighlightedFen = some ((b, turn) : Fingerprint)
                · simp only [if_pos hgate, if_neg hmv, if_pos hfen]
                  exact ⟨by trivial, fun e he => Or.inl he, fun e he => Or.inl he,
                    fun e he => Or.inl he⟩
                · simp only [if_pos hgate, if_neg hmv, if_neg hfen]
                  have hpre := analyze_position_fast_preserves oracle att
                    { st with playerColor := some player, overlays := [], currentLegalMoves := gmoves, currentFen := some (b, turn) }
                    (b, turn) gmoves b turn
                  refine ⟨hpre.1, ?_, ?_, ?_⟩
                  · intro e he
                    have he' : e ∈ (analyze_position_fast oracle att
                        { st with playerColor := some player, overlays := [], currentLegalMoves := gmoves, currentFen := some (b, turn) }
                        (b, turn) gmoves b turn).1.moveCache := he
                    exact hpre.2.2.1 e he'
                  · intro e he
                    have he' : e ∈ (analyze_position_fast oracle att
                        { st with playerColor := some player, overlays := [], currentLegalMoves := gmoves, currentFen := some (b, turn) }
                        (b, turn) gmoves b turn).1.qualityCache := he
                    rw [hpre.2.1] at he'
                    exact Or.inl he'
                  · intro e he
                    have he' : e ∈ (analyze_position_fast oracle att
                        { st with playerColor := some player, overlays := [], currentLegalMoves := gmoves, currentFen := some (b, turn) }
                        (b, turn) gmoves b turn).1.threatCache := he
                    exact hpre.2.2.2 e he'
            · simp only [if_neg hgate]
              exact ⟨by trivial, fun e he => Or.inl he, fun e he => Or.inl he,
                fun e he => Or.inl he⟩

theorem analyze_selected_piece_preserves (oracle : AOracle) (legalFn : LegalFn)
    (po : ProgOracle) (searchDepth : Nat) (st : AssistState) (sq : Nat) :
    (analyze_selected_piece oracle legalFn po searchDepth st sq).generation =
      st.generation ∧
    (∀ e ∈ (analyze_selected_piece oracle legalFn po searchDepth st sq).moveCache,
      e ∈ st.moveCache ∨ e.2.2 = st.generation) ∧
    (∀ e ∈ (analyze_selected_piece oracle legalFn po searchDepth st sq).qualityCache,
      e ∈ st.qualityCache ∨ e.2.2 = st.generation) ∧
    (∀ e ∈ (analyze_selected_piece oracle legalFn po searchDepth st sq).threatCache,
      e ∈ st.threatCache ∨ e.2.2 = st.generation) := by
  cases hf : st.currentFen with
  | none =>
    simp only [analyze_selected_piece, hf]
    exact ⟨by trivial, fun e he => Or.inl he, fun e he => Or.inl he,
      fun e he => Or.inl he⟩
  | some fp =>
    simp only [analyze_selected_piece, hf]
    by_cases hpm : (st.currentLegalMoves.filter
        (fun m => decide (m.start = sq))).isEmpty = true
    · simp only [if_pos hpm]
      exact ⟨by trivial, fun e he => Or.inl he, fun e he => Or.inl he,
        fun e he => Or.inl he⟩
    · simp only [if_neg hpm]
      cases hq : (st.qualityCache.find? (fun e => decide (e.1 = smKey fp
          (st.currentLegalMoves.filter (fun m => decide (m.start = sq)))))).map (·.2) with
      | some tv =>
        simp only [hq]
        by_cases hemp : tv.1.isEmpty = true
        · simp only [if_pos hemp]
          exact ⟨by trivial, fun e he => Or.inl he, fun e he => Or.inl he,
            fun e he => Or.inl he⟩
        · simp only [if_neg hemp]
          refine ⟨by trivial, ?_, fun e he => Or.inl he, fun e he => Or.inl he⟩
          intro e he
          exact assistantScoreMoves_mem oracle st.generation st.moveCache fp
            st.currentLegalMoves e he
      | none =>
        simp only [hq]
        by_cases hleg : ((st.currentLegalMoves.filter
            (fun m => decide (m.start = sq))).filter (legalFn fp.1)).isEmpty = true
        · simp only [if_pos hleg]
          exact ⟨by trivial, fun e he => Or.inl he, fun e he => Or.inl he,
            fun e he => Or.inl he⟩
        · simp only [if_neg hleg]
          by_cases hemp : (evaluate_moves_progressive legalFn po searchDepth fp.1
              (st.currentLegalMoves.filter (fun m => decide (m.start = sq)))).1.isEmpty = true
          · simp only [if_pos hemp]
            refine ⟨by trivial, fun e he => Or.inl he, ?_, fun e he => Or.inl he⟩
            intro e he
            rcases List.mem_cons.mp he with h | h
            · exact Or.inr (by rw [h])
            · exact Or.inl h
          · simp only [if_neg hemp]
            refine ⟨by trivial, ?_, ?_, fun e he => Or.inl he⟩
            · intro e he
              exact assistantScoreMoves_mem oracle st.generation st.moveCache fp
                st.currentLegalMoves e he
            · intro e he
              rcases List.mem_cons.mp he with h | h
              · exact Or.inr (by rw [h])
              · exact Or.inl h

/-- All cache entries were written strictly after generation `g0`, and the
current generation is past `g0`. -/
def CachesAbove (g0 : Nat) (st : AssistState) : Prop :=
  g0 < st.generation ∧
  (∀ e ∈ st.moveCache, g0 < e.2.2) ∧
  (∀ e ∈ st.qualityCache, g0 < e.2.2) ∧
  (∀ e ∈ st.threatCache, g0 < e.2.2)

theorem step_preserves_CachesAbove (oracle : AOracle) (att : AttackFn)
    (legalFn : LegalFn) (po : ProgOracle) (searchDepth : Nat) (g0 : Nat)
    (st st' : AssistState)
    (hstep : Step oracle att legalFn po searchDepth st st')
    (hinv : CachesAbove g0 st) : CachesAbove g0 st' := by
  obtain ⟨hg, hm, hq, ht⟩ := hinv
  cases hstep with
  | http gid =>
    cases gid with
    | none => exact ⟨hg, hm, hq, ht⟩
    | some g =>
      simp only [handle_response]
      split
      · exact ⟨hg, hm, hq, ht⟩
      · refine ⟨Nat.lt_succ_of_lt hg, ?_, ?_, ?_⟩ <;> intro e he <;> cases he
  | update u =>
    have hp := process_game_update_preserves oracle att st u
    refine ⟨hp.1 ▸ hg, ?_, ?_, ?_⟩
    · intro e he
      rcases hp.2.1 e he with h | h
      · exact hm e h
      · rw [h]; exact hg
    · intro e he
      rcases hp.2.2.1 e he with h | h
      · exact hq e h
      · rw [h]; exact hg
    · intro e he
      rcases hp.2.2.2 e he with h | h
      · exact ht e h
      · rw [h]; exact hg
  | select sq =>
    have hp := analyze_selected_piece_preserves oracle legalFn po searchDepth st sq
    refine ⟨hp.1 ▸ hg, ?_, ?_, ?_⟩
    · intro e he
      rcases hp.2.1 e he with h | h
      · exact hm e h
      · rw [h]; exact hg
    · intro e he
      rcases hp.2.2.1 e he with h | h
      · exact hq e h
      · rw [h]; exact hg
    · intro e he
      rcases hp.2.2.2 e he with h | h
      · exact ht e h
      · rw [h]; exact hg

/-- Claim C4: a traffic event carrying a game id different from the current
session's strictly increases the (ghost) generation and empties all three
caches; and in every state reachable from that reset — by further traffic
events, game updates or piece selections — every readable entry of any of
the three caches was written at a generation strictly above the previous
session's, so no entry written under the previous game id is ever readable
again. -/
theorem new_game_reset (oracle : AOracle) (att : AttackFn) (legalFn : LegalFn)
    (po : ProgOracle) (searchDepth : Nat) (st : AssistState) (g : String)
    (hne : st.gameId ≠ some g) :
    st.generation < (handle_response st (some g)).generation ∧
    (handle_response st (some g)).moveCache = [] ∧
    (handle_response st (some g)).qualityCache = [] ∧
    (handle_response st (some g)).threatCache = [] ∧
    (∀ st'', Relation.ReflTransGen (Step oracle att legalFn po searchDepth)
        (handle_response st (some g)) st'' →
      (∀ e ∈ st''.moveCache, st.generation < e.2.2) ∧
      (∀ e ∈ st''.qualityCache, st.generation < e.2.2) ∧
      (∀ e ∈ st''.threatCache, st.generation < e.2.2)) := by
  have hr : handle_response st (some g) =
      { st with
        gameId := some g
        generation := st.generation + 1
        lastHighlightedFen := none
        gameResult := none
        moveCache := []
        qualityCache := []
        threatCache := [] } := by
    simp only [handle_response]
    rw [if_neg hne]
  refine ⟨by rw [hr]; exact Nat.lt_succ_self _, by rw [hr], by rw [hr],
    by rw [hr], ?_⟩
  intro st'' hreach
  have hbase : CachesAbove st.generation (handle_response st (some g)) := by
    rw [hr]
    exact ⟨Nat.lt_succ_self _, fun e he => absurd he (List.not_mem_nil e),
      fun e he => absurd he (List.not_mem_nil e),
      fun e he => absurd he (List.not_mem_nil e)⟩
  have hinv : CachesAbove st.generation st'' := by
    induction hreach with
    | refl => exact hbase
    | tail hsteps hstep ih =>
      exact step_preserves_CachesAbove oracle att legalFn po searchDepth
        st.generation _ _ hstep ih
  exact ⟨hinv.2.1, hinv.2.2.1, hinv.2.2.2⟩

/-- Witness for C4: a concrete reset from the example session, with the
reachability clause instantiated at the reset state itself. -/
theorem new_game_reset_witness :
    exState.generation <
      (handle_response exState (some "g2")).generation ∧
    (handle_response exState (some "g2")).moveCache = [] ∧
    (∀ e ∈ (handle_response exState (some "g2")).threatCache,
      exState.generation < e.2.2) := by
  have h := new_game_reset (fun _ => (none, 0)) exAttack (fun _ _ => true)
    (fun _ _ => 0) 14 exState "g2" (by decide)
  exact ⟨h.1, h.2.1, (h.2.2.2.2 (handle_response exState (some "g2"))
    Relation.ReflTransGen.refl).2.2⟩

end DrawbackAssist
